import Mathlib

/-!
Verification development for the UE5 Input Streamliner plugin.

The definitions below are a shallow embedding of the plugin's C++ sources:

* `InputRebindingManager.cpp` — runtime key-rebinding subsystem
  (`UInputRebindingManager`): conflict detection, binding application,
  sensitivity settings, null-pointer guards.
* `InputStreamlinerManager.cpp` / `InputStreamlinerConfiguration.h` — the
  editor-side action-list manager (`UInputStreamlinerManager`): add, update,
  duplicate, remove, reorder actions; validation; unique-name generation.
* `InputStreamlinerWidget.cpp` — `ValidateConfiguration`.
* `LLMIntentParser.cpp` — `ParseJSONResponse`, the in-flight request flag of
  `ParseInputDescriptionAsync` / `OnHttpResponseReceived`.

Unreal engine containers are modelled explicitly: a `TMap` is an
insertion-ordered association list with unique keys (`alistFind` /
`alistAdd` / `alistRemove` mirror `Find` / `Add` / `Remove`); a `TArray` is
a `List`; an `FString` is a `String`; an `FName` is its string (name
comparison is modelled as string equality); a nullable `UObject*` is an
`Option`.  Engine-side effects (Slate input processors, the Enhanced Input
mapping-context rebuild, logging, disk I/O) happen outside these data
structures and are not part of the model; delegate broadcasts are recorded
as explicit event lists.  `FJsonSerializer::Deserialize` (closed engine
code) is a parameter `d : String → Option JsonObj` of the functions that
call it.  `float` fields that only ever pass through `FMath::Clamp` are
modelled as rationals.
-/

namespace InputStreamliner

/-! ## Keys and actions -/

/-- Model of `FKey`: a key is identified by its `FName`.  `EKeys::Invalid`
is the key whose name is `None`, and `FKey::IsValid` compares against it. -/
abbrev Key := String

/-- `EKeys::Invalid`. -/
def invalidKey : Key := "None"

/-- `FKey::IsValid`. -/
def keyIsValid (k : Key) : Bool := k ≠ invalidKey

/-- A `UInputAction*` is identified by object identity; distinct ids are
distinct objects.  A nullable pointer is an `Option ActionId`. -/
abbrev ActionId := Nat

/-! ## TMap as an insertion-ordered association list -/

/-- `TMap::Find`: the value of the (unique) entry with the given key. -/
def alistFind {α β : Type} [DecidableEq α] : List (α × β) → α → Option β
  | [], _ => none
  | (k, v) :: rest, a => if k = a then some v else alistFind rest a

/-- `TMap::Add` (also the net effect of `FindOrAdd` followed by writing the
entry): replace the entry in place when the key is present, append it
otherwise. -/
def alistAdd {α β : Type} [DecidableEq α] (m : List (α × β)) (a : α) (v : β) :
    List (α × β) :=
  if m.any (fun p => p.1 = a) then
    m.map (fun p => if p.1 = a then (a, v) else p)
  else m ++ [(a, v)]

/-- `TMap::Remove`. -/
def alistRemove {α β : Type} [DecidableEq α] (m : List (α × β)) (a : α) :
    List (α × β) :=
  m.filter (fun p => p.1 ≠ a)

/-- `TMap::Contains` (the membership test `FindOrAdd` performs). -/
def alistContains {α β : Type} [DecidableEq α] (m : List (α × β)) (a : α) : Bool :=
  m.any (fun p => p.1 = a)

/-! ## FInputBindingSaveData and the rebinding manager state -/

/-- `FInputBindingSaveData` (InputRebindingManager.h).  Sensitivities are
floats in the source; they are written only through `FMath::Clamp` with
exactly representable decimal bounds, so rationals model them faithfully.
`TouchControlPositions` is never read or written by the manager and is
omitted. -/
structure FInputBindingSaveData where
  version : Int := 1
  bindings : List (String × List Key) := []
  mouseSensitivity : ℚ := 1
  gamepadSensitivity : ℚ := 1
  gyroSensitivity : ℚ := 1
  bInvertY : Bool := false
  bGyroEnabled : Bool := false
  deriving DecidableEq

/-- The mutable state of `UInputRebindingManager`. -/
structure RebindState where
  currentBindings : List (ActionId × List Key) := []
  defaultBindings : List (ActionId × List Key) := []
  pendingRebindAction : Option ActionId := none
  pendingBindingIndex : Nat := 0
  saveData : FInputBindingSaveData := {}
  deriving DecidableEq

/-- Delegate broadcasts of the rebinding manager, recorded as events. -/
inductive RebindEvent where
  | bindingConflict (existingAction : ActionId) (conflictingKey : Key)
  | rebindComplete (action : ActionId) (newKey : Key)
  deriving DecidableEq

/-- `UInputRebindingManager::StartRebinding` (null guard, then records the
pending action and resets the pending index; the Slate input-processor
registration is engine-side). -/
def startRebinding (st : RebindState) (action : Option ActionId) : RebindState :=
  match action with
  | none => st
  | some a => { st with pendingRebindAction := some a, pendingBindingIndex := 0 }

/-- `UInputRebindingManager::GetBindingsForAction`. -/
def getBindingsForAction (st : RebindState) (action : Option ActionId) : List Key :=
  match action with
  | none => []
  | some a =>
    match alistFind st.currentBindings a with
    | some customBindings => customBindings
    | none =>
      match alistFind st.defaultBindings a with
      | some defaults => defaults
      | none => []

/-- `UInputRebindingManager::HasConflict`: a linear scan over
`CurrentBindings` (the only state it reads; `DefaultBindings` is not
consulted), skipping the queried action, returning the first other action
whose binding array contains the key (`none` models returning `false` with
`OutConflictingAction = nullptr`). -/
def hasConflict (currentBindings : List (ActionId × List Key)) (action : ActionId)
    (key : Key) : Option ActionId :=
  match currentBindings with
  | [] => none
  | (b, keys) :: rest =>
    if b = action then hasConflict rest action key
    else if key ∈ keys then some b
    else hasConflict rest action key

/-- The `while (Bindings.Num() <= BindingIndex) Bindings.Add(EKeys::Invalid)`
padding loop of `ApplyBinding`. -/
def padTo (keys : List Key) (n : Nat) : List Key :=
  keys ++ List.replicate (n + 1 - keys.length) invalidKey

/-- `UInputRebindingManager::ApplyBinding`.  Returns the C++ return value,
the new state and the broadcast events.  `ApplyBindingToMappingContext`
mutates Enhanced Input engine objects and is outside the model; the
`BindingIndex` parameter is an `int32` used only with non-negative values
(a negative index would be an out-of-bounds `TArray` write). -/
def applyBinding (st : RebindState) (action : Option ActionId) (newKey : Key)
    (bindingIndex : Nat) : Bool × RebindState × List RebindEvent :=
  match action with
  | none => (false, st, [])
  | some a =>
    if ¬ keyIsValid newKey then (false, st, [])
    else
      match hasConflict st.currentBindings a newKey with
      | some conflictingAction => (false, st, [.bindingConflict conflictingAction newKey])
      | none =>
        let bindings := (alistFind st.currentBindings a).getD []
        let updated := (padTo bindings bindingIndex).set bindingIndex newKey
        let st' := { st with currentBindings := alistAdd st.currentBindings a updated }
        let st'' :=
          if st'.pendingRebindAction = some a then
            { st' with pendingRebindAction := none }
          else st'
        (true, st'', [.rebindComplete a newKey])

/-- `UInputRebindingManager::RemoveBinding`. -/
def removeBinding (st : RebindState) (action : Option ActionId) (bindingIndex : Nat) :
    Bool × RebindState :=
  match action with
  | none => (false, st)
  | some a =>
    match alistFind st.currentBindings a with
    | none => (false, st)
    | some bindings =>
      if bindingIndex < bindings.length then
        (true, { st with
          currentBindings :=
            alistAdd st.currentBindings a (bindings.set bindingIndex invalidKey) })
      else (false, st)

/-- `UInputRebindingManager::SwapBindings`.  The two `FindOrAdd` calls are
modelled by their net effect of ensuring both entries exist (appending an
empty array for a missing one), after which the arrays are read and
updated through the map. -/
def swapBindings (st : RebindState) (actionA actionB : Option ActionId) (key : Key) :
    RebindState :=
  match actionA, actionB with
  | some a, some b =>
    let cb1 :=
      if alistContains st.currentBindings a then st.currentBindings
      else st.currentBindings ++ [(a, [])]
    let cb2 := if alistContains cb1 b then cb1 else cb1 ++ [(b, [])]
    let bindingsA := (alistFind cb2 a).getD []
    let bindingsB := (alistFind cb2 b).getD []
    let indexA := bindingsA.indexOf? key
    let indexB := bindingsB.indexOf? key
    let cb3 :=
      match indexB with
      | some j => alistAdd cb2 b (bindingsB.set j invalidKey)
      | none => cb2
    let cb4 :=
      match indexA with
      | none => alistAdd cb3 a (bindingsA ++ [key])
      | some _ => cb3
    { st with currentBindings := cb4 }
  | _, _ => st

/-- `UInputRebindingManager::ResetToDefault`. -/
def resetToDefault (st : RebindState) (action : Option ActionId) : RebindState :=
  match action with
  | none => st
  | some a =>
    match alistFind st.defaultBindings a with
    | some defaults => { st with currentBindings := alistAdd st.currentBindings a defaults }
    | none => { st with currentBindings := alistRemove st.currentBindings a }

/-- `FMath::Clamp` as defined in the engine:
`(X < Min) ? Min : (X < Max) ? X : Max`. -/
def fclamp (x mn mx : ℚ) : ℚ := if x < mn then mn else if x < mx then x else mx

/-- `UInputRebindingManager::SetMouseSensitivity`. -/
def setMouseSensitivity (st : RebindState) (s : ℚ) : RebindState :=
  { st with saveData := { st.saveData with mouseSensitivity := fclamp s (1/10) 5 } }

/-- `UInputRebindingManager::SetGamepadSensitivity`. -/
def setGamepadSensitivity (st : RebindState) (s : ℚ) : RebindState :=
  { st with saveData := { st.saveData with gamepadSensitivity := fclamp s (1/10) 5 } }

/-- `UInputRebindingManager::SetGyroSensitivity`. -/
def setGyroSensitivity (st : RebindState) (s : ℚ) : RebindState :=
  { st with saveData := { st.saveData with gyroSensitivity := fclamp s (1/10) 5 } }

/-! ## Conflict detection: specification lemmas -/

theorem hasConflict_exists_iff (cb : List (ActionId × List Key)) (a : ActionId) (k : Key) :
    (∃ c, hasConflict cb a k = some c) ↔ ∃ p ∈ cb, p.1 ≠ a ∧ k ∈ p.2 := by
  induction cb with
  | nil => simp [hasConflict]
  | cons hd tl ih =>
    obtain ⟨b, keys⟩ := hd
    simp only [hasConflict]
    by_cases hba : b = a
    · rw [if_pos hba]
      subst hba
      rw [ih]
      constructor
      · rintro ⟨p, hp, h1, h2⟩
        exact ⟨p, List.mem_cons_of_mem _ hp, h1, h2⟩
      · rintro ⟨p, hp, h1, h2⟩
        rcases List.mem_cons.mp hp with h | h
        · subst h
          exact absurd rfl h1
        · exact ⟨p, h, h1, h2⟩
    · rw [if_neg hba]
      by_cases hk : k ∈ keys
      · rw [if_pos hk]
        constructor
        · intro _
          exact ⟨(b, keys), List.mem_cons_self _ _, hba, hk⟩
        · intro _
          exact ⟨b, rfl⟩
      · rw [if_neg hk]
        rw [ih]
        constructor
        · rintro ⟨p, hp, h1, h2⟩
          exact ⟨p, List.mem_cons_of_mem _ hp, h1, h2⟩
        · rintro ⟨p, hp, h1, h2⟩
          rcases List.mem_cons.mp hp with h | h
          · subst h
            exact absurd h2 hk
          · exact ⟨p, h, h1, h2⟩

theorem hasConflict_eq_some {cb : List (ActionId × List Key)} {a : ActionId} {k : Key}
    {c : ActionId} (h : hasConflict cb a k = some c) :
    c ≠ a ∧ ∃ keys, (c, keys) ∈ cb ∧ k ∈ keys := by
  induction cb with
  | nil => simp [hasConflict] at h
  | cons hd tl ih =>
    obtain ⟨b, keys⟩ := hd
    simp only [hasConflict] at h
    by_cases hba : b = a
    · rw [if_pos hba] at h
      obtain ⟨hne, keys', hmem, hk'⟩ := ih h
      exact ⟨hne, keys', List.mem_cons_of_mem _ hmem, hk'⟩
    · rw [if_neg hba] at h
      by_cases hk : k ∈ keys
      · rw [if_pos hk] at h
        injection h with h
        subst h
        exact ⟨hba, keys, List.mem_cons_self _ _, hk⟩
      · rw [if_neg hk] at h
        obtain ⟨hne, keys', hmem, hk'⟩ := ih h
        exact ⟨hne, keys', List.mem_cons_of_mem _ hmem, hk'⟩

/-- C3: `HasConflict(Action, Key, OutConflictingAction)` returns true, setting
`OutConflictingAction` to a conflicting action, if and only if some entry of
`CurrentBindings` whose action differs from `Action` has a binding array
containing `Key`; the reported action is always such an entry's action, so the
queried action itself is never reported.  `hasConflict` is a single linear scan
taking only `CurrentBindings`; `DefaultBindings` is not consulted. -/
theorem hasConflict_spec (cb : List (ActionId × List Key)) (a : ActionId) (k : Key) :
    ((∃ c, hasConflict cb a k = some c) ↔ ∃ p ∈ cb, p.1 ≠ a ∧ k ∈ p.2)
    ∧ ∀ c, hasConflict cb a k = some c →
        c ≠ a ∧ ∃ keys, (c, keys) ∈ cb ∧ k ∈ keys :=
  ⟨hasConflict_exists_iff cb a k, fun _ h => hasConflict_eq_some h⟩

/-- C2: for every action `A`, valid key `K` and index `i`, if some other action
holds `K` in its current binding array then `ApplyBinding(A, K, i)` broadcasts
`OnBindingConflict` with a conflicting action, returns false, and leaves the
state — in particular every action's entry in `CurrentBindings` — unchanged. -/
theorem applyBinding_conflict (st : RebindState) (a : ActionId) (k : Key) (i : Nat)
    (hk : keyIsValid k = true)
    (hconf : ∃ p ∈ st.currentBindings, p.1 ≠ a ∧ k ∈ p.2) :
    ∃ c, c ≠ a ∧ (∃ keys, (c, keys) ∈ st.currentBindings ∧ k ∈ keys) ∧
      applyBinding st (some a) k i = (false, st, [.bindingConflict c k]) := by
  obtain ⟨c, hc⟩ := (hasConflict_exists_iff st.currentBindings a k).mpr hconf
  obtain ⟨hne, hmem⟩ := hasConflict_eq_some hc
  refine ⟨c, hne, hmem, ?_⟩
  simp [applyBinding, hk, hc]

/-- Concrete instance of `applyBinding_conflict`: with `CurrentBindings`
`[(1, ["E"]), (2, ["F"])]`, applying key `"F"` to action `3` hits the conflict
with action `2`, returns false and changes nothing. -/
theorem applyBinding_conflict_witness :
    ∃ c, c ≠ 3 ∧
      (∃ keys, (c, keys) ∈
        ({ currentBindings := [(1, ["E"]), (2, ["F"])] } : RebindState).currentBindings
        ∧ "F" ∈ keys) ∧
      applyBinding { currentBindings := [(1, ["E"]), (2, ["F"])] } (some 3) "F" 0
        = (false, { currentBindings := [(1, ["E"]), (2, ["F"])] },
            [.bindingConflict c "F"]) :=
  applyBinding_conflict { currentBindings := [(1, ["E"]), (2, ["F"])] } 3 "F" 0
    (by decide) ⟨(2, ["F"]), by decide, by decide, by decide⟩

/-! ## Sensitivity clamping -/

theorem fclamp_ge_left {x mn mx : ℚ} (h : mn ≤ mx) : mn ≤ fclamp x mn mx := by
  unfold fclamp
  split
  · exact le_refl _
  · next h1 =>
    split
    · exact le_of_not_lt h1
    · exact h

theorem fclamp_le_right {x mn mx : ℚ} (h : mn ≤ mx) : fclamp x mn mx ≤ mx := by
  unfold fclamp
  split
  · exact h
  · split
    · next h2 => exact le_of_lt h2
    · exact le_refl _

/-- C9: `SetMouseSensitivity`, `SetGamepadSensitivity` and `SetGyroSensitivity`
store `Clamp(S, 0.1, 5.0)` into the corresponding `SaveData` field, so the
stored sensitivity always lies in the closed interval `[0.1, 5.0]`, even when
the argument is outside it. -/
theorem setSensitivity_clamps (st : RebindState) (s : ℚ) :
    (setMouseSensitivity st s).saveData.mouseSensitivity = fclamp s (1/10) 5
    ∧ (setGamepadSensitivity st s).saveData.gamepadSensitivity = fclamp s (1/10) 5
    ∧ (setGyroSensitivity st s).saveData.gyroSensitivity = fclamp s (1/10) 5
    ∧ 1/10 ≤ fclamp s (1/10) 5 ∧ fclamp s (1/10) 5 ≤ 5 :=
  ⟨rfl, rfl, rfl, fclamp_ge_left (by norm_num), fclamp_le_right (by norm_num)⟩

/-- C10: every public binding operation of `UInputRebindingManager` is a safe
no-op on a null action pointer: `GetBindingsForAction` returns the empty
array, `ApplyBinding` and `RemoveBinding` return false without broadcasting,
and `StartRebinding`, `ResetToDefault` and `SwapBindings` (either argument
null) return with the state — `CurrentBindings`, `DefaultBindings` and the
pending-rebind fields — unchanged. -/
theorem nullAction_safe (st : RebindState) (k : Key) (i : Nat) (a : ActionId) :
    getBindingsForAction st none = []
    ∧ applyBinding st none k i = (false, st, [])
    ∧ removeBinding st none i = (false, st)
    ∧ startRebinding st none = st
    ∧ resetToDefault st none = st
    ∧ swapBindings st none (some a) k = st
    ∧ swapBindings st (some a) none k = st
    ∧ swapBindings st none none k = st :=
  ⟨rfl, rfl, rfl, rfl, rfl, rfl, rfl, rfl⟩

/-! ## The editor-side data model (InputActionDefinition.h,
TouchControlDefinition.h, InputStreamlinerConfiguration.h) -/

/-- `EInputActionType`. -/
inductive EInputActionType where
  | Bool
  | Axis1D
  | Axis2D
  | Axis3D
  deriving DecidableEq

/-- `ETargetPlatform` (the five platform flags; the `None` case of the C++
enum is modelled by `Option ETargetPlatform`, and `All` is the bitmask 255
of the `TargetPlatforms` field). -/
inductive ETargetPlatform where
  | PC_Keyboard
  | PC_Gamepad
  | Mac
  | iOS
  | Android
  deriving DecidableEq

/-- `EInputTriggerType`. -/
inductive EInputTriggerType where
  | Pressed
  | Released
  | Hold
  | Tap
  | DoubleTap
  deriving DecidableEq

/-- `FKeyBindingDefinition`. -/
structure FKeyBindingDefinition where
  key : Key := invalidKey
  modifiers : List Key := []
  triggerType : EInputTriggerType := .Pressed
  axisMapping : String := ""
  deriving DecidableEq

/-- `FPlatformBindingConfig`. -/
structure FPlatformBindingConfig where
  bindings : List FKeyBindingDefinition := []
  touchControlType : String := ""
  deriving DecidableEq

/-- `FInputActionDefinition`, with the default member values of its C++
constructor (`TargetPlatforms` defaults to `ETargetPlatform::All = 0xFF`). -/
structure FInputActionDefinition where
  actionName : String := ""
  displayName : String := ""
  description : String := ""
  actionType : EInputActionType := .Bool
  targetPlatforms : Nat := 255
  bAllowRebinding : Bool := true
  category : String := "General"
  platformBindings : List (ETargetPlatform × FPlatformBindingConfig) := []
  deriving DecidableEq

/-- `FTouchControlDefinition` (the fields the manager reads or writes; the
purely visual layout fields — screen position, size, opacity, dead zone and
the radial-menu entries — are carried along unread and are collapsed into
`otherFields`, a placeholder that the manager copies verbatim). -/
structure FTouchControlDefinition where
  controlName : String := ""
  linkedActionName : String := ""
  otherFields : List String := []
  deriving DecidableEq

/-- `FGyroConfiguration` (the fields `ParseJSONResponse` writes). -/
structure FGyroConfiguration where
  bEnabled : Bool := false
  linkedActionName : String := ""
  activationAction : String := ""
  deriving DecidableEq

/-- `FInputStreamlinerConfiguration`, with its C++ constructor defaults (the
code-generation flags and LLM endpoint settings are carried but unused by
the modelled operations). -/
structure FInputStreamlinerConfiguration where
  projectPrefix : String := "Game"
  actions : List FInputActionDefinition := []
  touchControls : List FTouchControlDefinition := []
  gyroConfig : FGyroConfiguration := {}
  inputActionsPath : String := "/Game/Input/Actions"
  mappingContextsPath : String := "/Game/Input/Contexts"
  widgetsPath : String := "/Game/UI/Input"
  generatedCodePath : String := "Input"
  deriving DecidableEq

abbrev Config := FInputStreamlinerConfiguration

/-! ## UInputStreamlinerManager (InputStreamlinerManager.cpp) -/

/-- `FName::IsNone`: the name built from the empty string or `"None"` is
`NAME_None`. -/
def fnameIsNone (n : String) : Bool := n = "" || n = "None"

/-- `FInputStreamlinerConfiguration::HasAction` (via `FindAction`): whether
some action carries the name. -/
def hasAction (cfg : Config) (n : String) : Bool :=
  cfg.actions.any (fun a => a.actionName = n)

/-- `UInputStreamlinerManager::IsActionNameUnique`. -/
def isActionNameUnique (cfg : Config) (n : String) : Bool := ¬ hasAction cfg n

/-- `UInputStreamlinerManager::ValidateAction`: `some err` models returning
false with `OutError = err`, `none` models returning true. -/
def validateAction (a : FInputActionDefinition) : Option String :=
  if fnameIsNone a.actionName then some "Action name cannot be empty"
  else if a.displayName = "" then some "Display name cannot be empty"
  else if a.targetPlatforms = 0 then some "At least one target platform must be selected"
  else none

/-- `UInputStreamlinerManager::AddInputAction` (the delegate broadcasts carry
no state and are omitted). -/
def addInputAction (cfg : Config) (a : FInputActionDefinition) : Bool × Config :=
  match validateAction a with
  | some _ => (false, cfg)
  | none =>
    if ¬ isActionNameUnique cfg a.actionName then (false, cfg)
    else (true, { cfg with actions := cfg.actions ++ [a] })

/-- The index `IndexOfByPredicate` / `FindAction` return: the first action
with the given name. -/
def findActionIdx (actions : List FInputActionDefinition) (n : String) : Option Nat :=
  match actions with
  | [] => none
  | a :: rest =>
    if a.actionName = n then some 0 else (findActionIdx rest n).map (· + 1)

/-- `UInputStreamlinerManager::RemoveInputAction`. -/
def removeInputAction (cfg : Config) (n : String) : Bool × Config :=
  match findActionIdx cfg.actions n with
  | none => (false, cfg)
  | some i =>
    (true, { cfg with
      touchControls := cfg.touchControls.filter (fun c => c.linkedActionName ≠ n),
      actions := cfg.actions.eraseIdx i })

/-- `UInputStreamlinerManager::UpdateInputAction`. -/
def updateInputAction (cfg : Config) (n : String) (a : FInputActionDefinition) :
    Bool × Config :=
  match findActionIdx cfg.actions n with
  | none => (false, cfg)
  | some i =>
    if a.actionName ≠ n then
      if ¬ isActionNameUnique cfg a.actionName then (false, cfg)
      else
        (true, { cfg with
          touchControls := cfg.touchControls.map (fun c =>
            if c.linkedActionName = n then { c with linkedActionName := a.actionName }
            else c),
          actions := cfg.actions.set i a })
    else (true, { cfg with actions := cfg.actions.set i a })

/-- The character of a decimal digit. -/
def digitChar48 (d : Nat) : Char := Char.ofNat (48 + d)

/-- Decimal rendering of a natural number (the `%d` of
`FString::Printf(TEXT("%s_%d"), ...)`). -/
def natToStr (n : Nat) : String :=
  if n = 0 then "0"
  else ⟨(Nat.digits 10 n).reverse.map digitChar48⟩

/-- The candidate `FString::Printf(TEXT("%s_%d"), *BaseName, Counter)`. -/
def genCandidate (base : String) (counter : Nat) : String :=
  base ++ "_" ++ natToStr counter

/-- The counter loop of `GenerateUniqueActionName`.  The C++ `while` loop is
unbounded; `cfg.actions.length + 1` counter values always contain a unique
candidate (`generateUniqueActionName_unique` below), so running it with that
much fuel is exact. -/
def genLoop (cfg : Config) (base : String) : Nat → Nat → String
  | 0, counter => genCandidate base counter
  | fuel + 1, counter =>
    let testName := genCandidate base counter
    if ¬ isActionNameUnique cfg testName then genLoop cfg base fuel (counter + 1)
    else testName

/-- `UInputStreamlinerManager::GenerateUniqueActionName`. -/
def generateUniqueActionName (cfg : Config) (base : String) : String :=
  if ¬ isActionNameUnique cfg base then genLoop cfg base (cfg.actions.length + 1) 1
  else base

/-- `UInputStreamlinerManager::DuplicateInputAction`. -/
def duplicateInputAction (cfg : Config) (sourceActionName newActionName : String) :
    Bool × Config :=
  match (findActionIdx cfg.actions sourceActionName).bind (cfg.actions[·]?) with
  | none => (false, cfg)
  | some sourceAction =>
    let finalName :=
      if ¬ isActionNameUnique cfg newActionName then
        generateUniqueActionName cfg newActionName
      else newActionName
    addInputAction cfg
      { sourceAction with
        actionName := finalName,
        displayName := sourceAction.displayName ++ " (Copy)" }

/-- `FMath::Clamp` on `int32`. -/
def intClamp (x mn mx : Int) : Int := if x < mn then mn else if x < mx then x else mx

/-- `UInputStreamlinerManager::ReorderAction` (`NewIndex` is an `int32`
clamped into `[0, Num() - 1]`). -/
def reorderAction (cfg : Config) (n : String) (newIndex : Int) : Config :=
  match findActionIdx cfg.actions n with
  | none => cfg
  | some currentIndex =>
    let clamped := (intClamp newIndex 0 ((cfg.actions.length : Int) - 1)).toNat
    if currentIndex = clamped then cfg
    else
      match cfg.actions[currentIndex]? with
      | none => cfg
      | some action =>
        { cfg with actions := (cfg.actions.eraseIdx currentIndex).insertIdx clamped action }

/-! ## UInputStreamlinerWidget::ValidateConfiguration -/

/-- The duplicate-name scan of `ValidateConfiguration`: walks the action list
with the `SeenNames` set, emitting `"Action has no name"` for a `None` name
and `"Duplicate action name: <name>"` for each occurrence of a name after its
first. -/
def duplicateNameErrors (actions : List FInputActionDefinition) (seen : List String) :
    List String :=
  match actions with
  | [] => []
  | a :: rest =>
    if fnameIsNone a.actionName then
      "Action has no name" :: duplicateNameErrors rest seen
    else if a.actionName ∈ seen then
      ("Duplicate action name: " ++ a.actionName) :: duplicateNameErrors rest seen
    else duplicateNameErrors rest (a.actionName :: seen)

/-- `UInputStreamlinerWidget::ValidateConfiguration`: the error list it fills
into `OutErrors`, and the returned `OutErrors.Num() == 0`. -/
def validateConfiguration (cfg : Config) : Bool × List String :=
  let errors :=
    (if cfg.projectPrefix = "" then ["Project prefix is empty"] else [])
    ++ (if cfg.actions.length = 0 then ["No actions defined"] else [])
    ++ duplicateNameErrors cfg.actions []
    ++ (if cfg.inputActionsPath = "" then ["Input Actions path is empty"] else [])
  (errors.length = 0, errors)

/-! ## Unique-name generation terminates with a unique name -/

theorem digitChar48_toNat {d : Nat} (hd : d < 10) : (digitChar48 d).toNat = 48 + d := by
  have hvalid : (48 + d).isValidChar := Or.inl (by omega)
  unfold digitChar48
  rw [Char.ofNat, dif_pos hvalid]
  rfl

theorem map_digitChar48_inj {l m : List Nat} (hl : ∀ d ∈ l, d < 10)
    (hm : ∀ d ∈ m, d < 10) (h : l.map digitChar48 = m.map digitChar48) : l = m := by
  induction l generalizing m with
  | nil =>
    cases m with
    | nil => rfl
    | cons b m' => simp at h
  | cons a l' ih =>
    cases m with
    | nil => simp at h
    | cons b m' =>
      simp only [List.map_cons, List.cons.injEq] at h
      have ha : a = b := by
        have h1 := digitChar48_toNat (hl a (List.mem_cons_self a l'))
        have h2 := digitChar48_toNat (hm b (List.mem_cons_self b m'))
        rw [h.1] at h1
        omega
      subst ha
      rw [ih (fun d hd => hl d (List.mem_cons_of_mem _ hd))
        (fun d hd => hm d (List.mem_cons_of_mem _ hd)) h.2]

theorem natToStr_ne_zeroStr {n : Nat} (hn : n ≠ 0) :
    (⟨(Nat.digits 10 n).reverse.map digitChar48⟩ : String) ≠ "0" := by
  intro h
  have hd : (Nat.digits 10 n).reverse.map digitChar48 = ['0'] := congrArg String.data h
  have hd' : (Nat.digits 10 n).reverse.map digitChar48 = List.map digitChar48 [0] := by
    rw [hd]
    decide
  have hone : (Nat.digits 10 n).reverse = [0] := by
    apply map_digitChar48_inj _ _ hd'
    · intro d hdm
      exact Nat.digits_lt_base (by norm_num) (List.mem_reverse.mp hdm)
    · intro d hdm
      simp at hdm
      omega
  have hdig : Nat.digits 10 n = [0] := by
    have := congrArg List.reverse hone
    simpa using this
  have : n = 0 := by
    have := Nat.ofDigits_digits 10 n
    rw [hdig] at this
    simpa [Nat.ofDigits] using this.symm
  exact hn this

theorem natToStr_inj {m n : Nat} (h : natToStr m = natToStr n) : m = n := by
  unfold natToStr at h
  by_cases hm : m = 0 <;> by_cases hn : n = 0
  · omega
  · rw [if_pos hm, if_neg hn] at h
    exact absurd h.symm (natToStr_ne_zeroStr hn)
  · rw [if_neg hm, if_pos hn] at h
    exact absurd h (natToStr_ne_zeroStr hm)
  · rw [if_neg hm, if_neg hn] at h
    have hd : (Nat.digits 10 m).reverse.map digitChar48
        = (Nat.digits 10 n).reverse.map digitChar48 := congrArg String.data h
    have hrev : (Nat.digits 10 m).reverse = (Nat.digits 10 n).reverse := by
      apply map_digitChar48_inj _ _ hd <;>
        exact fun d hdm => Nat.digits_lt_base (by norm_num) (List.mem_reverse.mp hdm)
    have hdig : Nat.digits 10 m = Nat.digits 10 n := by
      have := congrArg List.reverse hrev
      simpa using this
    calc m = Nat.ofDigits 10 (Nat.digits 10 m) := (Nat.ofDigits_digits 10 m).symm
      _ = Nat.ofDigits 10 (Nat.digits 10 n) := by rw [hdig]
      _ = n := Nat.ofDigits_digits 10 n

theorem genCandidate_inj (base : String) : Function.Injective (genCandidate base) := by
  intro i j h
  unfold genCandidate at h
  have hd := congrArg String.data h
  simp only [String.data_append] at hd
  have hdata : (natToStr i).data = (natToStr j).data := List.append_cancel_left hd
  exact natToStr_inj (String.ext hdata)

theorem hasAction_iff_mem (cfg : Config) (n : String) :
    hasAction cfg n = true ↔ n ∈ cfg.actions.map (fun a => a.actionName) := by
  simp only [hasAction, List.any_eq_true, decide_eq_true_eq, List.mem_map]

theorem exists_unique_counter (cfg : Config) (base : String) :
    ∃ i, 1 ≤ i ∧ i < cfg.actions.length + 2
      ∧ isActionNameUnique cfg (genCandidate base i) = true := by
  by_contra hall
  push_neg at hall
  have hfalse : ∀ i, 1 ≤ i → i < cfg.actions.length + 2 →
      hasAction cfg (genCandidate base i) = true := by
    intro i h1 h2
    have := hall i h1 h2
    unfold isActionNameUnique at this
    cases hha : hasAction cfg (genCandidate base i) with
    | false => rw [hha] at this; simp at this
    | true => rfl
  have hsub : ((List.range' 1 (cfg.actions.length + 1)).map (genCandidate base))
      ⊆ cfg.actions.map (fun a => a.actionName) := by
    intro s hs
    obtain ⟨i, hi, rfl⟩ := List.mem_map.mp hs
    rw [List.mem_range'_1] at hi
    exact (hasAction_iff_mem cfg _).mp (hfalse i hi.1 (by omega))
  have hnd : ((List.range' 1 (cfg.actions.length + 1)).map (genCandidate base)).Nodup :=
    (List.nodup_range' 1 _).map (genCandidate_inj base)
  have hle := (List.subperm_of_subset hnd hsub).length_le
  simp only [List.length_map, List.length_range'] at hle
  omega

theorem genLoop_unique (cfg : Config) (base : String) :
    ∀ (fuel counter : Nat),
      (∃ i, counter ≤ i ∧ i < counter + fuel
        ∧ isActionNameUnique cfg (genCandidate base i) = true) →
      isActionNameUnique cfg (genLoop cfg base fuel counter) = true := by
  intro fuel
  induction fuel with
  | zero =>
    rintro counter ⟨i, h1, h2, _⟩
    omega
  | succ f ih =>
    rintro counter ⟨i, h1, h2, hu⟩
    simp only [genLoop]
    by_cases hc : isActionNameUnique cfg (genCandidate base counter) = true
    · rw [if_neg (by simp [hc])]
      exact hc
    · rw [if_pos (by simpa using hc)]
      apply ih
      refine ⟨i, ?_, by omega, hu⟩
      rcases Nat.eq_or_lt_of_le h1 with h | h
      · exact absurd (h ▸ hu) hc
      · omega

/-- The name `GenerateUniqueActionName` returns is in fact unique: among the
candidates for counters `1 .. Num()+1` some name is unused (pigeonhole over
the injective decimal suffixes), so the while loop stops within the fuel at
a name no existing action carries. -/
theorem generateUniqueActionName_unique (cfg : Config) (base : String) :
    isActionNameUnique cfg (generateUniqueActionName cfg base) = true := by
  unfold generateUniqueActionName
  by_cases hb : isActionNameUnique cfg base = true
  · rw [if_neg (by simp [hb])]
    exact hb
  · rw [if_pos (by simpa using hb)]
    apply genLoop_unique
    obtain ⟨i, h1, h2, hu⟩ := exists_unique_counter cfg base
    exact ⟨i, h1, by omega, hu⟩

/-! ## Uniqueness of action names is preserved by the manager operations -/

/-- The multiset of interest: the `ActionName` of every action, in order. -/
def actionNames (actions : List FInputActionDefinition) : List String :=
  actions.map (fun a => a.actionName)

theorem findActionIdx_some {actions : List FInputActionDefinition} {n : String} {i : Nat}
    (h : findActionIdx actions n = some i) :
    ∃ a, actions[i]? = some a ∧ a.actionName = n := by
  induction actions generalizing i with
  | nil => simp [findActionIdx] at h
  | cons hd tl ih =>
    simp only [findActionIdx] at h
    by_cases hh : hd.actionName = n
    · rw [if_pos hh] at h
      injection h with h
      subst h
      exact ⟨hd, by simp, hh⟩
    · rw [if_neg hh] at h
      cases hfi : findActionIdx tl n with
      | none =>
        rw [hfi] at h
        simp at h
      | some j =>
        rw [hfi] at h
        simp only [Option.map_some', Option.some.injEq] at h
        subst h
        obtain ⟨a, ha, hn⟩ := ih hfi
        exact ⟨a, by simpa using ha, hn⟩

theorem set_getElem?_self {α : Type} {l : List α} :
    ∀ {i : Nat} {x : α}, l[i]? = some x → l.set i x = l := by
  induction l with
  | nil =>
    intro i x h
    simp at h
  | cons hd tl ih =>
    intro i x h
    cases i with
    | zero =>
      simp only [List.getElem?_cons_zero, Option.some.injEq] at h
      subst h
      rfl
    | succ j =>
      simp only [List.getElem?_cons_succ] at h
      simp only [List.set_cons_succ]
      rw [ih h]

theorem insertIdx_perm {α : Type} (x : α) :
    ∀ (l : List α) (j : Nat), j ≤ l.length → (l.insertIdx j x).Perm (x :: l)
  | l, 0, _ => by simp
  | [], j + 1, h => by simp at h
  | hd :: tl, j + 1, h => by
    rw [List.insertIdx_succ_cons]
    exact ((insertIdx_perm x tl j (by simpa using h)).cons hd).trans
      (List.Perm.swap x hd tl)

theorem cons_eraseIdx_perm {α : Type} :
    ∀ (l : List α) (i : Nat) (x : α), l[i]? = some x → (x :: l.eraseIdx i).Perm l
  | [], i, x, h => by simp at h
  | hd :: tl, 0, x, h => by
    simp only [List.getElem?_cons_zero, Option.some.injEq] at h
    subst h
    simp [List.eraseIdx]
  | hd :: tl, i + 1, x, h => by
    simp only [List.getElem?_cons_succ] at h
    rw [List.eraseIdx_cons_succ]
    exact (List.Perm.swap hd x _).trans ((cons_eraseIdx_perm tl i x h).cons hd)

theorem hasAction_false_not_mem {cfg : Config} {n : String}
    (h : hasAction cfg n = false) : n ∉ actionNames cfg.actions := by
  intro hmem
  rw [(hasAction_iff_mem cfg n).mpr hmem] at h
  exact Bool.noConfusion h

theorem addInputAction_nodup (cfg : Config) (a : FInputActionDefinition)
    (h : (actionNames cfg.actions).Nodup) :
    (actionNames (addInputAction cfg a).2.actions).Nodup := by
  unfold addInputAction
  cases hv : validateAction a with
  | some e => exact h
  | none =>
    by_cases hu : isActionNameUnique cfg a.actionName = true
    · rw [if_neg (by simp [hu])]
      simp only [actionNames, List.map_append, List.map_cons, List.map_nil]
      rw [List.nodup_append]
      refine ⟨h, List.nodup_singleton _, ?_⟩
      intro s hs hs'
      simp only [List.mem_singleton] at hs'
      subst hs'
      have : hasAction cfg a.actionName = false := by
        unfold isActionNameUnique at hu
        simpa using hu
      exact hasAction_false_not_mem this hs
    · rw [if_pos (by simpa using hu)]
      exact h

theorem addInputAction_dup (cfg : Config) (a : FInputActionDefinition)
    (hdup : hasAction cfg a.actionName = true) :
    addInputAction cfg a = (false, cfg) := by
  unfold addInputAction
  cases hv : validateAction a with
  | some e => rfl
  | none =>
    rw [if_pos]
    simp [isActionNameUnique, hdup]

theorem updateInputAction_nodup (cfg : Config) (n : String) (a : FInputActionDefinition)
    (h : (actionNames cfg.actions).Nodup) :
    (actionNames (updateInputAction cfg n a).2.actions).Nodup := by
  unfold updateInputAction
  cases hfi : findActionIdx cfg.actions n with
  | none => exact h
  | some i =>
    obtain ⟨x, hx, hxn⟩ := findActionIdx_some hfi
    dsimp only
    by_cases hne : a.actionName ≠ n
    · rw [if_pos hne]
      by_cases hu : isActionNameUnique cfg a.actionName = true
      · rw [if_neg (by simp [hu])]
        simp only [actionNames, List.map_set]
        apply List.Nodup.set h
        apply hasAction_false_not_mem
        unfold isActionNameUnique at hu
        simpa using hu
      · rw [if_pos (by simpa using hu)]
        exact h
    · rw [if_neg hne]
      push_neg at hne
      simp only [actionNames, List.map_set]
      have hnames : (cfg.actions.map (fun a => a.actionName))[i]? = some a.actionName := by
        rw [List.getElem?_map, hx]
        simp [hxn, hne]
      rw [show (cfg.actions.map (fun a => a.actionName)).set i a.actionName
          = cfg.actions.map (fun a => a.actionName) from set_getElem?_self hnames]
      exact h

theorem updateInputAction_renameConflict (cfg : Config) (n : String)
    (a : FInputActionDefinition) (hne : a.actionName ≠ n)
    (hdup : hasAction cfg a.actionName = true) :
    updateInputAction cfg n a = (false, cfg) := by
  unfold updateInputAction
  cases hfi : findActionIdx cfg.actions n with
  | none => rfl
  | some i =>
    dsimp only
    rw [if_pos hne, if_pos]
    simp [isActionNameUnique, hdup]

theorem removeInputAction_nodup (cfg : Config) (n : String)
    (h : (actionNames cfg.actions).Nodup) :
    (actionNames (removeInputAction cfg n).2.actions).Nodup := by
  unfold removeInputAction
  cases hfi : findActionIdx cfg.actions n with
  | none => exact h
  | some i =>
    exact List.Nodup.sublist (List.Sublist.map _ (List.eraseIdx_sublist _ i)) h

theorem duplicateInputAction_nodup (cfg : Config) (s n : String)
    (h : (actionNames cfg.actions).Nodup) :
    (actionNames (duplicateInputAction cfg s n).2.actions).Nodup := by
  unfold duplicateInputAction
  cases hsrc : (findActionIdx cfg.actions s).bind (cfg.actions[·]?) with
  | none => exact h
  | some sourceAction => exact addInputAction_nodup cfg _ h

theorem intClamp_toNat_le {x mx : Int} (hmx : 0 ≤ mx) :
    (intClamp x 0 mx).toNat ≤ mx.toNat := by
  unfold intClamp
  split
  · omega
  · split <;> omega

theorem reorderAction_nodup (cfg : Config) (n : String) (newIndex : Int)
    (h : (actionNames cfg.actions).Nodup) :
    (actionNames (reorderAction cfg n newIndex).actions).Nodup := by
  unfold reorderAction
  cases hfi : findActionIdx cfg.actions n with
  | none => exact h
  | some currentIndex =>
    obtain ⟨x, hx, hxn⟩ := findActionIdx_some hfi
    dsimp only
    have hlen : currentIndex < cfg.actions.length := by
      rcases List.getElem?_eq_some.mp hx with ⟨hlt, _⟩
      exact hlt
    by_cases heq : currentIndex = (intClamp newIndex 0 ((cfg.actions.length : Int) - 1)).toNat
    · rw [if_pos heq]
      exact h
    · rw [if_neg heq, hx]
      have hclamp : (intClamp newIndex 0 ((cfg.actions.length : Int) - 1)).toNat
          ≤ cfg.actions.length - 1 := by
        have := @intClamp_toNat_le newIndex ((cfg.actions.length : Int) - 1) (by omega)
        omega
      have hperm : (((cfg.actions.eraseIdx currentIndex).insertIdx
            (intClamp newIndex 0 ((cfg.actions.length : Int) - 1)).toNat x)).Perm
          cfg.actions := by
        have hlen' : (cfg.actions.eraseIdx currentIndex).length = cfg.actions.length - 1 := by
          rw [List.length_eraseIdx]
          simp [hlen]
        have h1 := insertIdx_perm x (cfg.actions.eraseIdx currentIndex)
          (intClamp newIndex 0 ((cfg.actions.length : Int) - 1)).toNat
          (by omega)
        exact h1.trans (cons_eraseIdx_perm cfg.actions currentIndex x hx)
      simp only [actionNames] at h ⊢
      exact (List.Perm.nodup_iff (hperm.map (fun a => a.actionName))).mpr h

/-- C4: starting from a configuration whose `ActionName`s are pairwise
distinct, they remain pairwise distinct after `AddInputAction` (which returns
false on a duplicate name, leaving the configuration unchanged),
`UpdateInputAction` (which returns false when renaming to an existing name),
`DuplicateInputAction` (which substitutes the generated — and genuinely
unique — name when the requested one exists), `RemoveInputAction` and
`ReorderAction`. -/
theorem uniqueNames_preserved (cfg : Config)
    (h : (actionNames cfg.actions).Nodup) :
    (∀ a, (actionNames (addInputAction cfg a).2.actions).Nodup)
    ∧ (∀ n a, (actionNames (updateInputAction cfg n a).2.actions).Nodup)
    ∧ (∀ s n, (actionNames (duplicateInputAction cfg s n).2.actions).Nodup)
    ∧ (∀ n, (actionNames (removeInputAction cfg n).2.actions).Nodup)
    ∧ (∀ n i, (actionNames (reorderAction cfg n i).actions).Nodup)
    ∧ (∀ a, hasAction cfg a.actionName = true → addInputAction cfg a = (false, cfg))
    ∧ (∀ n a, a.actionName ≠ n → hasAction cfg a.actionName = true →
        updateInputAction cfg n a = (false, cfg))
    ∧ (∀ s n sourceAction,
        (findActionIdx cfg.actions s).bind (cfg.actions[·]?) = some sourceAction →
        hasAction cfg n = true →
        duplicateInputAction cfg s n = addInputAction cfg
          { sourceAction with
            actionName := generateUniqueActionName cfg n,
            displayName := sourceAction.displayName ++ " (Copy)" }
        ∧ isActionNameUnique cfg (generateUniqueActionName cfg n) = true) := by
  refine ⟨fun a => addInputAction_nodup cfg a h,
    fun n a => updateInputAction_nodup cfg n a h,
    fun s n => duplicateInputAction_nodup cfg s n h,
    fun n => removeInputAction_nodup cfg n h,
    fun n i => reorderAction_nodup cfg n i h,
    fun a => addInputAction_dup cfg a,
    fun n a hne => updateInputAction_renameConflict cfg n a hne,
    fun s n sourceAction hsrc hdup => ?_⟩
  constructor
  · unfold duplicateInputAction
    rw [hsrc]
    rw [if_pos]
    simp [isActionNameUnique, hdup]
  · exact generateUniqueActionName_unique cfg n

/-- Demonstration action for the concrete instances below. -/
def demoAction (n : String) : FInputActionDefinition :=
  { actionName := n, displayName := n }

/-- Demonstration configuration with two distinctly named actions. -/
def demoConfig : Config :=
  { actions := [demoAction "Jump", demoAction "Fire"] }

/-- Concrete instance of `uniqueNames_preserved`: adding a third action to the
two-action demo configuration keeps the names pairwise distinct. -/
theorem uniqueNames_preserved_witness :
    (actionNames (addInputAction demoConfig (demoAction "Dodge")).2.actions).Nodup :=
  (uniqueNames_preserved demoConfig (by decide)).1 (demoAction "Dodge")

/-! ## ValidateAction and ValidateConfiguration -/

/-- The claim that every zero-bitmask action is rejected with the platform
error fails as stated: an action whose `TargetPlatforms` bitmask is zero but
whose `ActionName` is `None` is rejected with the name error (the checks
short-circuit), not with `At least one target platform must be selected`. -/
theorem validateAction_zeroMask_error_cex :
    ({ actionName := "None", displayName := "X", targetPlatforms := 0 } :
        FInputActionDefinition).targetPlatforms = 0
    ∧ validateAction { actionName := "None", displayName := "X", targetPlatforms := 0 }
        = some "Action name cannot be empty"
    ∧ validateAction { actionName := "None", displayName := "X", targetPlatforms := 0 }
        ≠ some "At least one target platform must be selected" := by
  refine ⟨rfl, by decide, by decide⟩

/-- C5 (amended): `ValidateAction` returns false exactly when the action name
is `None`, the display name is empty, or the `TargetPlatforms` bitmask is
zero; a zero bitmask is rejected with the error `At least one target platform
must be selected` whenever the two earlier checks pass (an action that also
fails an earlier check is rejected with that earlier error instead); and
every action satisfying all three conditions is accepted. -/
theorem validateAction_spec (a : FInputActionDefinition) :
    (validateAction a = none
      ↔ fnameIsNone a.actionName = false ∧ a.displayName ≠ "" ∧ a.targetPlatforms ≠ 0)
    ∧ (fnameIsNone a.actionName = false → a.displayName ≠ "" → a.targetPlatforms = 0 →
        validateAction a = some "At least one target platform must be selected") := by
  constructor
  · unfold validateAction
    split_ifs with h1 h2 h3 <;> simp_all
  · intro h1 h2 h3
    unfold validateAction
    rw [if_neg (by simp [h1]), if_neg h2, if_pos h3]

/-- Concrete instance of `validateAction_spec`: a zero-bitmask action with a
valid name and display name is rejected with the platform error. -/
theorem validateAction_spec_witness :
    validateAction { actionName := "Fly", displayName := "Fly", targetPlatforms := 0 }
      = some "At least one target platform must be selected" :=
  (validateAction_spec _).2 (by decide) (by decide) rfl

theorem dupErrorMsg_ne (n : String) {t : String} (ht : t.data[10]? ≠ some 'a') :
    "Duplicate action name: " ++ n ≠ t := by
  intro h
  have hd := congrArg String.data h
  rw [String.data_append] at hd
  have h10 : ("Duplicate action name: ".data ++ n.data)[10]? = some 'a' := by
    rw [List.getElem?_append_left (by decide)]
    decide
  rw [hd] at h10
  exact ht h10

theorem dupErrorMsg_inj {x y : String}
    (h : "Duplicate action name: " ++ x = "Duplicate action name: " ++ y) : x = y := by
  have hd := congrArg String.data h
  simp only [String.data_append] at hd
  exact String.ext (List.append_cancel_left hd)

theorem duplicateNameErrors_count {n : String} (hn : fnameIsNone n = false) :
    ∀ (actions : List FInputActionDefinition) (seen : List String),
      (duplicateNameErrors actions seen).count ("Duplicate action name: " ++ n)
        = (actionNames actions).count n - (if n ∈ seen then 0 else 1) := by
  intro actions
  induction actions with
  | nil =>
    intro seen
    simp [duplicateNameErrors, actionNames]
  | cons a rest ih =>
    intro seen
    simp only [duplicateNameErrors]
    by_cases ha : fnameIsNone a.actionName = true
    · rw [if_pos ha]
      have hne : a.actionName ≠ n := fun he => by
        rw [he, hn] at ha
        exact Bool.noConfusion ha
      rw [List.count_cons_of_ne (dupErrorMsg_ne n (by decide))]
      rw [ih seen]
      simp only [actionNames, List.map_cons]
      rw [List.count_cons_of_ne (Ne.symm hne)]
    · rw [if_neg (by simpa using ha)]
      by_cases hseen : a.actionName ∈ seen
      · rw [if_pos hseen]
        by_cases he : a.actionName = n
        · subst he
          rw [List.count_cons_self]
          rw [ih seen]
          simp only [actionNames, List.map_cons]
          rw [List.count_cons_self, if_pos hseen]
          omega
        · rw [List.count_cons_of_ne (fun hc => he (dupErrorMsg_inj hc).symm)]
          rw [ih seen]
          simp only [actionNames, List.map_cons]
          rw [List.count_cons_of_ne (fun hc => he hc.symm)]
      · rw [if_neg hseen]
        by_cases he : a.actionName = n
        · subst he
          rw [ih (a.actionName :: seen)]
          simp only [actionNames, List.map_cons]
          rw [List.count_cons_self]
          rw [if_pos (List.mem_cons_self _ _), if_neg hseen]
          omega
        · rw [ih (a.actionName :: seen)]
          simp only [actionNames, List.map_cons]
          rw [List.count_cons_of_ne (fun hc => he hc.symm)]
          by_cases hns : n ∈ seen
          · rw [if_pos hns, if_pos (List.mem_cons_of_mem _ hns)]
          · rw [if_neg hns, if_neg (fun hc =>
              (List.mem_cons.mp hc).elim (fun hc' => absurd hc'.symm he) hns)]

/-- C6: `ValidateConfiguration` validates name uniqueness: for every non-`None`
name, the error list carries one `Duplicate action name: <name>` entry per
occurrence of the name after its first, and a configuration containing two
actions with the same non-`None` `ActionName` fails validation (the function
returns false). -/
theorem validateConfiguration_duplicates (cfg : Config) (n : String)
    (hn : fnameIsNone n = false) :
    ((validateConfiguration cfg).2.count ("Duplicate action name: " ++ n)
        = (actionNames cfg.actions).count n - 1)
    ∧ (2 ≤ (actionNames cfg.actions).count n →
        (validateConfiguration cfg).1 = false) := by
  have hcount : (validateConfiguration cfg).2.count ("Duplicate action name: " ++ n)
      = (actionNames cfg.actions).count n - 1 := by
    unfold validateConfiguration
    simp only [List.count_append]
    have h1 : (if cfg.projectPrefix = "" then ["Project prefix is empty"] else []).count
        ("Duplicate action name: " ++ n) = 0 := by
      split
      · rw [List.count_eq_zero]
        simp only [List.mem_singleton]
        exact dupErrorMsg_ne n (by decide)
      · rfl
    have h2 : (if cfg.actions.length = 0 then ["No actions defined"] else []).count
        ("Duplicate action name: " ++ n) = 0 := by
      split
      · rw [List.count_eq_zero]
        simp only [List.mem_singleton]
        exact dupErrorMsg_ne n (by decide)
      · rfl
    have h4 : (if cfg.inputActionsPath = "" then ["Input Actions path is empty"] else []).count
        ("Duplicate action name: " ++ n) = 0 := by
      split
      · rw [List.count_eq_zero]
        simp only [List.mem_singleton]
        exact dupErrorMsg_ne n (by decide)
      · rfl
    rw [h1, h2, h4, duplicateNameErrors_count hn cfg.actions []]
    simp
  refine ⟨hcount, fun h2 => ?_⟩
  have hpos : 0 < (validateConfiguration cfg).2.count ("Duplicate action name: " ++ n) := by
    omega
  have hmem : ("Duplicate action name: " ++ n) ∈ (validateConfiguration cfg).2 :=
    List.count_pos_iff.mp hpos
  have hlen : (validateConfiguration cfg).2.length ≠ 0 :=
    fun h0 => by
      rw [List.length_eq_zero] at h0
      rw [h0] at hmem
      exact List.not_mem_nil _ hmem
  unfold validateConfiguration at hlen ⊢
  exact decide_eq_false hlen

/-- Demonstration configuration with a duplicated action name. -/
def demoDupConfig : Config :=
  { actions := [demoAction "Jump", demoAction "Jump"] }

/-- Concrete instance of `validateConfiguration_duplicates`: a configuration
with the name `Jump` twice gets one duplicate error and fails validation. -/
theorem validateConfiguration_duplicates_witness :
    ((validateConfiguration demoDupConfig).2.count ("Duplicate action name: " ++ "Jump")
        = (actionNames demoDupConfig.actions).count "Jump" - 1)
    ∧ (2 ≤ (actionNames demoDupConfig.actions).count "Jump" →
        (validateConfiguration demoDupConfig).1 = false) :=
  validateConfiguration_duplicates demoDupConfig "Jump" (by decide)

/-! ## JSON values (the engine's FJsonValue / FJsonObject object model)

An `FJsonObject` is its field map in insertion order; object keys produced by
the engine's JSON parser are unique up to case (an `FString`-keyed `TMap`
hashes and compares its keys case-insensitively, so `SetField` with a
case-variant key replaces). -/

inductive Json where
  | null
  | bool (b : Bool)
  | num (q : ℚ)
  | str (s : String)
  | arr (elems : List Json)
  | obj (fields : List (String × Json))

abbrev JsonObj := List (String × Json)

/-- ASCII lowercasing, character by character — the normalization underlying
the engine's case-insensitive string comparison. -/
def strLower (s : String) : String := ⟨s.data.map Char.toLower⟩

/-- `FString::operator==` with a string literal, which the engine implements
with `FCString::Stricmp` and is therefore case-insensitive; modelled by
comparing ASCII lowercasings. -/
def fstrEq (a b : String) : Bool := strLower a == strLower b

/-- `TMap<FString, TSharedPtr<FJsonValue>>::Find`: the lookup behind the
`FJsonObject` field accessors; `FString` keys compare case-insensitively. -/
def jsonFind : JsonObj → String → Option Json
  | [], _ => none
  | (k, v) :: rest, key => if fstrEq k key then some v else jsonFind rest key

/-- `FJsonValue::AsObject` / `TryGetObject`: valid exactly for objects. -/
def Json.asObject : Json → Option JsonObj
  | .obj fields => some fields
  | _ => none

/-- `FJsonValue::AsString`: the string itself, `true` / `false` for booleans,
and the empty string otherwise (the engine renders numbers through its float
formatting, which the parsed schemas never rely on). -/
def Json.asString : Json → String
  | .str s => s
  | .bool b => if b then "true" else "false"
  | _ => ""

/-- `FJsonValue::AsBool`: booleans as themselves, numbers by comparison with
zero, strings through `FString::ToBool` (approximated by its accepted
true-words, which it matches case-insensitively). -/
def Json.asBool : Json → Bool
  | .bool b => b
  | .num q => decide (q ≠ 0)
  | .str s => fstrEq s "true" || fstrEq s "1" || fstrEq s "yes" || fstrEq s "on"
  | _ => false

/-- `FJsonObject::GetStringField`: empty string when the field is missing. -/
def getStringField (o : JsonObj) (k : String) : String :=
  match jsonFind o k with
  | some v => v.asString
  | none => ""

/-- `FJsonObject::GetBoolField`: false when the field is missing. -/
def getBoolField (o : JsonObj) (k : String) : Bool :=
  match jsonFind o k with
  | some v => v.asBool
  | none => false

/-- `FJsonObject::TryGetArrayField`: the field exists and is an array. -/
def tryGetArrayField (o : JsonObj) (k : String) : Option (List Json) :=
  match jsonFind o k with
  | some (.arr elems) => some elems
  | _ => none

/-- `FJsonObject::TryGetObjectField`: the field exists and is an object. -/
def tryGetObjectField (o : JsonObj) (k : String) : Option JsonObj :=
  match jsonFind o k with
  | some (.obj fields) => some fields
  | _ => none

/-! ## ULLMIntentParser::ParseJSONResponse (LLMIntentParser.cpp) -/

/-- The `if/else` chain mapping the `type` string, with the engine's
case-insensitive `==` (default `Bool` from the `FInputActionDefinition`
constructor when no branch matches). -/
def parseActionType (s : String) : EInputActionType :=
  if fstrEq s "Bool" then .Bool
  else if fstrEq s "Axis1D" then .Axis1D
  else if fstrEq s "Axis2D" then .Axis2D
  else if fstrEq s "Axis3D" then .Axis3D
  else .Bool

/-- The `if/else` chain mapping a bindings key to a platform, with the
engine's case-insensitive `==` (so case variants such as `android` are
recognized); `none` is the `ETargetPlatform::None` left by an unmatched
name, which makes the loop `continue`. -/
def platformOfName (s : String) : Option ETargetPlatform :=
  if fstrEq s "PC_Keyboard" then some .PC_Keyboard
  else if fstrEq s "PC_Gamepad" then some .PC_Gamepad
  else if fstrEq s "Mac" then some .Mac
  else if fstrEq s "iOS" then some .iOS
  else if fstrEq s "Android" then some .Android
  else none

/-- One `FKeyBindingDefinition` from a key object (`key`, `axis`, `trigger`;
only `Hold` — compared case-insensitively — is mapped, everything else keeps
the default `Pressed`). -/
def keyBindingOfObj (keyObj : JsonObj) : FKeyBindingDefinition :=
  { key := getStringField keyObj "key",
    axisMapping := getStringField keyObj "axis",
    triggerType :=
      if fstrEq (getStringField keyObj "trigger") "Hold" then .Hold else .Pressed }

/-- The inner loop over a platform's `KeysArray`: non-object elements are
skipped, object elements are appended in array order. -/
def bindingsOfArray : List Json → List FKeyBindingDefinition
  | [] => []
  | v :: rest =>
    match v.asObject with
    | none => bindingsOfArray rest
    | some keyObj => keyBindingOfObj keyObj :: bindingsOfArray rest

/-- The `FPlatformBindingConfig` built for one bindings value: an array of
key bindings, or an object carrying `touchControl`, or (neither) the
default-constructed config. -/
def platformConfigOfValue (v : Json) : FPlatformBindingConfig :=
  match v with
  | .arr keysArray => { bindings := bindingsOfArray keysArray }
  | .obj platformObj => { touchControlType := getStringField platformObj "touchControl" }
  | _ => {}

/-- The loop over `(*BindingsObj)->Values`: recognized platform names `Add`
their config to `PlatformBindings`, unrecognized names are skipped. -/
def parsePlatformBindings (bindingsObj : JsonObj) :
    List (ETargetPlatform × FPlatformBindingConfig) :=
  bindingsObj.foldl
    (fun acc kv =>
      match platformOfName kv.1 with
      | none => acc
      | some p => alistAdd acc p (platformConfigOfValue kv.2))
    []

/-- One `FInputActionDefinition` from an action object (lines 192-262 of
`LLMIntentParser.cpp`); fields the parser does not write keep the C++
constructor defaults. -/
def parseActionDef (actionObj : JsonObj) : FInputActionDefinition :=
  { actionName := getStringField actionObj "name",
    displayName := getStringField actionObj "displayName",
    category := getStringField actionObj "category",
    bAllowRebinding := getBoolField actionObj "allowRebinding",
    actionType := parseActionType (getStringField actionObj "type"),
    platformBindings :=
      match tryGetObjectField actionObj "bindings" with
      | none => []
      | some bindingsObj => parsePlatformBindings bindingsObj }

/-- The body of `ParseJSONResponse` after deserialization: a fresh
configuration, the `actions` array (invalid elements skipped), and the
optional `gyro` object. -/
def parseConfig (jsonObject : JsonObj) : Config :=
  let base : Config := {}
  let withActions :=
    match tryGetArrayField jsonObject "actions" with
    | none => base
    | some actionsArray =>
      { base with
        actions := actionsArray.filterMap (fun v => v.asObject.map parseActionDef) }
  match tryGetObjectField jsonObject "gyro" with
  | none => withActions
  | some gyroObj =>
    { withActions with
      gyroConfig :=
        { bEnabled := getBoolField gyroObj "enabled",
          linkedActionName := getStringField gyroObj "linkedAction",
          activationAction := getStringField gyroObj "activationAction" } }

/-- `FString::Find` from the start: the index of the first occurrence. -/
def firstIndexOfChar (c : Char) : List Char → Option Nat
  | [] => none
  | x :: rest => if x = c then some 0 else (firstIndexOfChar c rest).map (· + 1)

/-- `FString::Find` with `ESearchDir::FromEnd`: the index of the last
occurrence. -/
def lastIndexOfChar (c : Char) : List Char → Option Nat
  | [] => none
  | x :: rest =>
    match lastIndexOfChar c rest with
    | some i => some (i + 1)
    | none => if x = c then some 0 else none

/-- The character the parser brackets the payload with. -/
def openBraceChar : Char := Char.ofNat 123

/-- Its closing counterpart. -/
def closeBraceChar : Char := Char.ofNat 125

/-- `ULLMIntentParser::ParseJSONResponse`.  `d` is
`FJsonSerializer::Deserialize` into an object (closed engine code); `.error`
models returning false with that `OutError`, `.ok` models returning true with
the new `LastParsedConfig` (left untouched on the failure paths, exactly as
in the C++). -/
def parseJSONResponse (d : String → Option JsonObj) (s : String) :
    Except String Config :=
  match firstIndexOfChar openBraceChar s.data, lastIndexOfChar closeBraceChar s.data with
  | some startIndex, some endIndex =>
    if endIndex < startIndex then .error "No valid JSON found in response"
    else
      match d ⟨(s.data.drop startIndex).take (endIndex - startIndex + 1)⟩ with
      | none => .error "Failed to parse JSON"
      | some jsonObject => .ok (parseConfig jsonObject)
  | _, _ => .error "No valid JSON found in response"

/-! ## ULLMIntentParser state and the in-flight flag -/

/-- The mutable state of `ULLMIntentParser`, with its member defaults. -/
structure ParserState where
  endpointURL : String := "http://localhost"
  endpointPort : Int := 11434
  modelName : String := "nemotron:8b"
  lastParsedConfig : Config := {}
  bParseInProgress : Bool := false

/-- The observable actions of the parser: delegate invocations and the HTTP
request dispatch. -/
inductive ParserEvent where
  | callback (success : Bool) (message : String)
  | broadcast (success : Bool) (message : String)
  | httpRequest (url : String)

/-- Decimal rendering of an `int32` (`%d`). -/
def intToStr (i : Int) : String :=
  if i < 0 then "-" ++ natToStr i.natAbs else natToStr i.toNat

/-- The `/api/generate` URL `ParseInputDescriptionAsync` posts to. -/
def generateURL (st : ParserState) : String :=
  st.endpointURL ++ ":" ++ intToStr st.endpointPort ++ "/api/generate"

/-- `ULLMIntentParser::ParseInputDescriptionAsync`: new state plus events.
When no parse is in flight the flag is raised and exactly one HTTP request is
dispatched (its JSON body is built by engine serialization); when one is in
flight the callback is invoked with failure and nothing else happens. -/
def parseInputDescriptionAsync (st : ParserState) (_description : String) :
    ParserState × List ParserEvent :=
  if st.bParseInProgress then (st, [.callback false "Parse already in progress"])
  else ({ st with bParseInProgress := true }, [.httpRequest (generateURL st)])

/-- `ULLMIntentParser::OnHttpResponseReceived`.  `response` is
`none` when `Response.IsValid()` fails, otherwise the response code and
content string; `d` is `FJsonSerializer::Deserialize`.  The flag is cleared
first, before any branch. -/
def onHttpResponseReceived (st : ParserState) (wasSuccessful : Bool)
    (response : Option (Int × String)) (d : String → Option JsonObj) :
    ParserState × List ParserEvent :=
  let st0 := { st with bParseInProgress := false }
  match response with
  | none =>
    (st0, [.callback false "HTTP request failed", .broadcast false "HTTP request failed"])
  | some (responseCode, content) =>
    if ¬ wasSuccessful then
      (st0, [.callback false "HTTP request failed", .broadcast false "HTTP request failed"])
    else if responseCode ≠ 200 then
      (st0, [.callback false ("HTTP error: " ++ intToStr responseCode),
        .broadcast false ("HTTP error: " ++ intToStr responseCode)])
    else
      match d content with
      | none =>
        (st0, [.callback false "Failed to parse Ollama response JSON",
          .broadcast false "Failed to parse Ollama response JSON"])
      | some jsonResponse =>
        match parseJSONResponse d (getStringField jsonResponse "response") with
        | .error parseError =>
          (st0, [.callback false parseError, .broadcast false parseError])
        | .ok cfg =>
          ({ st0 with lastParsedConfig := cfg }, [.callback true "", .broadcast true ""])

/-! ## Find specifications: first and last occurrence -/

/-- `i` is the index of the first occurrence of `c`. -/
def isFirstOccurrence (c : Char) (cs : List Char) (i : Nat) : Prop :=
  cs[i]? = some c ∧ ∀ j, j < i → cs[j]? ≠ some c

/-- `i` is the index of the last occurrence of `c`. -/
def isLastOccurrence (c : Char) (cs : List Char) (i : Nat) : Prop :=
  cs[i]? = some c ∧ ∀ j, i < j → cs[j]? ≠ some c

theorem firstIndexOfChar_none_iff {c : Char} {cs : List Char} :
    firstIndexOfChar c cs = none ↔ c ∉ cs := by
  induction cs with
  | nil => simp [firstIndexOfChar]
  | cons x rest ih =>
    simp only [firstIndexOfChar]
    by_cases hx : x = c
    · subst hx
      simp
    · rw [if_neg hx]
      constructor
      · intro h hm
        rcases List.mem_cons.mp hm with h' | h'
        · exact hx h'.symm
        · exact (ih.mp (Option.map_eq_none'.mp h)) h'
      · intro h
        rw [Option.map_eq_none']
        exact ih.mpr (fun hm => h (List.mem_cons_of_mem _ hm))

theorem firstIndexOfChar_some {c : Char} {cs : List Char} {i : Nat}
    (h : firstIndexOfChar c cs = some i) : isFirstOccurrence c cs i := by
  induction cs generalizing i with
  | nil => simp [firstIndexOfChar] at h
  | cons x rest ih =>
    simp only [firstIndexOfChar] at h
    by_cases hx : x = c
    · rw [if_pos hx] at h
      injection h with h
      subst h
      subst hx
      exact ⟨by simp, fun j hj => absurd hj (Nat.not_lt_zero j)⟩
    · rw [if_neg hx] at h
      cases hf : firstIndexOfChar c rest with
      | none =>
        rw [hf] at h
        simp at h
      | some j =>
        rw [hf] at h
        simp only [Option.map_some', Option.some.injEq] at h
        subst h
        obtain ⟨h1, h2⟩ := ih hf
        refine ⟨by simpa using h1, ?_⟩
        intro j' hj'
        cases j' with
        | zero => simp [hx]
        | succ j'' =>
          simp only [List.getElem?_cons_succ]
          exact h2 j'' (by omega)

theorem lastIndexOfChar_none_iff {c : Char} {cs : List Char} :
    lastIndexOfChar c cs = none ↔ c ∉ cs := by
  induction cs with
  | nil => simp [lastIndexOfChar]
  | cons x rest ih =>
    simp only [lastIndexOfChar]
    cases hr : lastIndexOfChar c rest with
    | some j =>
      have hmem : c ∈ rest := by
        by_contra hnm
        rw [ih.mpr hnm] at hr
        exact Option.noConfusion hr
      simp [List.mem_cons, hmem]
    | none =>
      have hnm : c ∉ rest := ih.mp hr
      by_cases hx : x = c
      · subst hx
        simp
      · rw [if_neg hx]
        simp only [List.mem_cons]
        constructor
        · intro _ hor
          rcases hor with h' | h'
          · exact hx h'.symm
          · exact hnm h'
        · intro _
          trivial

theorem lastIndexOfChar_some {c : Char} {cs : List Char} {i : Nat}
    (h : lastIndexOfChar c cs = some i) : isLastOccurrence c cs i := by
  induction cs generalizing i with
  | nil => simp [lastIndexOfChar] at h
  | cons x rest ih =>
    simp only [lastIndexOfChar] at h
    cases hr : lastIndexOfChar c rest with
    | some j =>
      rw [hr] at h
      injection h with h
      subst h
      obtain ⟨h1, h2⟩ := ih hr
      refine ⟨by simpa using h1, ?_⟩
      intro j' hj'
      cases j' with
      | zero => omega
      | succ j'' =>
        simp only [List.getElem?_cons_succ]
        exact h2 j'' (by omega)
    | none =>
      rw [hr] at h
      by_cases hx : x = c
      · rw [if_pos hx] at h
        injection h with h
        subst h
        refine ⟨by simp [hx], ?_⟩
        intro j hj
        cases j with
        | zero => omega
        | succ j'' =>
          simp only [List.getElem?_cons_succ]
          intro hc
          exact (lastIndexOfChar_none_iff.mp hr) (List.getElem?_mem hc)
      · rw [if_neg hx] at h
        exact absurd h (by simp)

theorem firstIndexOfChar_eq_some {c : Char} {cs : List Char} {i : Nat}
    (h : isFirstOccurrence c cs i) : firstIndexOfChar c cs = some i := by
  cases hf : firstIndexOfChar c cs with
  | none => exact absurd (List.getElem?_mem h.1) (firstIndexOfChar_none_iff.mp hf)
  | some i' =>
    obtain ⟨g1, g2⟩ := firstIndexOfChar_some hf
    have : i' = i := by
      rcases Nat.lt_trichotomy i i' with hlt | heq | hgt
      · exact absurd h.1 (g2 i hlt)
      · omega
      · exact absurd g1 (h.2 i' hgt)
    rw [this]

theorem lastIndexOfChar_eq_some {c : Char} {cs : List Char} {i : Nat}
    (h : isLastOccurrence c cs i) : lastIndexOfChar c cs = some i := by
  cases hl : lastIndexOfChar c cs with
  | none => exact absurd (List.getElem?_mem h.1) (lastIndexOfChar_none_iff.mp hl)
  | some i' =>
    obtain ⟨g1, g2⟩ := lastIndexOfChar_some hl
    have : i' = i := by
      rcases Nat.lt_trichotomy i i' with hlt | heq | hgt
      · exact absurd g1 (h.2 i' hlt)
      · omega
      · exact absurd h.1 (g2 i hgt)
    rw [this]

/-- C1: `ParseJSONResponse(S, OutError)` fails with `No valid JSON found in
response` exactly when `S` contains no open brace, or no close brace, or the
last close brace comes before the first open brace; otherwise it hands the
substring of `S` from the first open brace through the last close brace
inclusive to JSON deserialization, failing with `Failed to parse JSON` exactly
when that substring does not deserialize, and succeeding on its parse
otherwise. -/
theorem parseJSONResponse_spec (d : String → Option JsonObj) (s : String) :
    (parseJSONResponse d s = .error "No valid JSON found in response"
      ↔ openBraceChar ∉ s.data ∨ closeBraceChar ∉ s.data ∨
          ∃ si ei, isFirstOccurrence openBraceChar s.data si
            ∧ isLastOccurrence closeBraceChar s.data ei ∧ ei < si)
    ∧ ∀ si ei, isFirstOccurrence openBraceChar s.data si →
        isLastOccurrence closeBraceChar s.data ei → si ≤ ei →
        (parseJSONResponse d s = .error "Failed to parse JSON"
          ↔ d ⟨(s.data.drop si).take (ei - si + 1)⟩ = none)
        ∧ ∀ o, d ⟨(s.data.drop si).take (ei - si + 1)⟩ = some o →
            parseJSONResponse d s = .ok (parseConfig o) := by
  constructor
  · unfold parseJSONResponse
    cases hf : firstIndexOfChar openBraceChar s.data with
    | none =>
      exact ⟨fun _ => Or.inl (firstIndexOfChar_none_iff.mp hf), fun _ => rfl⟩
    | some si' =>
      cases hl : lastIndexOfChar closeBraceChar s.data with
      | none =>
        exact ⟨fun _ => Or.inr (Or.inl (lastIndexOfChar_none_iff.mp hl)), fun _ => rfl⟩
      | some ei' =>
        obtain ⟨f1, f2⟩ := firstIndexOfChar_some hf
        obtain ⟨l1, l2⟩ := lastIndexOfChar_some hl
        dsimp only
        by_cases hlt : ei' < si'
        · rw [if_pos hlt]
          exact ⟨fun _ => Or.inr (Or.inr ⟨si', ei', ⟨f1, f2⟩, ⟨l1, l2⟩, hlt⟩),
            fun _ => rfl⟩
        · rw [if_neg hlt]
          constructor
          · intro hres
            exfalso
            cases hd : d ⟨(s.data.drop si').take (ei' - si' + 1)⟩ with
            | none =>
              rw [hd] at hres
              exact absurd (Except.error.inj hres) (by decide)
            | some o =>
              rw [hd] at hres
              exact Except.noConfusion hres
          · intro hrhs
            exfalso
            rcases hrhs with hmo | hmc | ⟨si, ei, hfo, hlo, hei⟩
            · exact hmo (List.getElem?_mem f1)
            · exact hmc (List.getElem?_mem l1)
            · have hsi := firstIndexOfChar_eq_some hfo
              have heil := lastIndexOfChar_eq_some hlo
              rw [hf] at hsi
              rw [hl] at heil
              injection hsi with hsi
              injection heil with heil
              omega
  · intro si ei hfo hlo hle
    have hsi : firstIndexOfChar openBraceChar s.data = some si :=
      firstIndexOfChar_eq_some hfo
    have hei : lastIndexOfChar closeBraceChar s.data = some ei :=
      lastIndexOfChar_eq_some hlo
    unfold parseJSONResponse
    rw [hsi, hei]
    dsimp only
    rw [if_neg (by omega)]
    constructor
    · cases hd : d ⟨(s.data.drop si).take (ei - si + 1)⟩ with
      | none => simp [hd]
      | some o => simp [hd]
    · intro o ho
      rw [ho]

/-- C7: at most one LLM parse request is ever in flight.  A call to
`ParseInputDescriptionAsync` while `bParseInProgress` holds immediately
invokes its callback with failure and `Parse already in progress`, issues no
HTTP request and changes no state; a call while it is clear raises the flag
(the assignment precedes `ProcessRequest` in the source) and dispatches
exactly one request; and `OnHttpResponseReceived` clears the flag on every
response path. -/
theorem singleParseInFlight (st : ParserState) (description : String)
    (wasSuccessful : Bool) (response : Option (Int × String))
    (d : String → Option JsonObj) :
    (st.bParseInProgress = true →
      parseInputDescriptionAsync st description
        = (st, [.callback false "Parse already in progress"]))
    ∧ (st.bParseInProgress = false →
        parseInputDescriptionAsync st description
          = ({ st with bParseInProgress := true }, [.httpRequest (generateURL st)]))
    ∧ (onHttpResponseReceived st wasSuccessful response d).1.bParseInProgress = false := by
  refine ⟨fun h => ?_, fun h => ?_, ?_⟩
  · simp [parseInputDescriptionAsync, h]
  · simp [parseInputDescriptionAsync, h]
  · unfold onHttpResponseReceived
    cases response with
    | none => rfl
    | some rc =>
      obtain ⟨responseCode, content⟩ := rc
      dsimp only
      split
      · rfl
      · split
        · rfl
        · cases d content with
          | none => rfl
          | some jsonResponse =>
            dsimp only
            split
            · rfl
            · rfl

/-! ## Ordering of parsed platform bindings -/

theorem platformOfName_inj {k1 k2 : String} {p : ETargetPlatform}
    (h1 : platformOfName k1 = some p) (h2 : platformOfName k2 = some p) :
    strLower k1 = strLower k2 := by
  unfold platformOfName fstrEq at h1 h2
  split_ifs at h1 h2 <;> simp_all <;> (rw [← h1] at h2; exact ETargetPlatform.noConfusion h2)

theorem bindingsOfArray_eq_filterMap (keysArray : List Json) :
    bindingsOfArray keysArray
      = keysArray.filterMap (fun v => v.asObject.map keyBindingOfObj) := by
  induction keysArray with
  | nil => rfl
  | cons v rest ih =>
    simp only [bindingsOfArray, List.filterMap_cons]
    cases v.asObject with
    | none => simpa using ih
    | some keyObj => simpa using ih

theorem parsePlatformBindings_go (bo : JsonObj) :
    ∀ acc : List (ETargetPlatform × FPlatformBindingConfig),
      (bo.map (fun kv => strLower kv.1)).Nodup →
      (∀ kv ∈ bo, ∀ p, platformOfName kv.1 = some p → alistContains acc p = false) →
      bo.foldl
          (fun acc kv =>
            match platformOfName kv.1 with
            | none => acc
            | some p => alistAdd acc p (platformConfigOfValue kv.2))
          acc
        = acc ++ bo.filterMap (fun kv => (platformOfName kv.1).map
            (fun p => (p, platformConfigOfValue kv.2))) := by
  induction bo with
  | nil =>
    intro acc _ _
    simp
  | cons kv rest ih =>
    intro acc hnd hfresh
    have hndr : (rest.map (fun kv' => strLower kv'.1)).Nodup :=
      (List.nodup_cons.mp (by simpa using hnd)).2
    have hhd : strLower kv.1 ∉ rest.map (fun kv' => strLower kv'.1) :=
      (List.nodup_cons.mp (by simpa using hnd)).1
    simp only [List.foldl_cons, List.filterMap_cons]
    cases hp : platformOfName kv.1 with
    | none =>
      rw [ih acc hndr (fun kv' hkv' p' hp' => hfresh kv' (List.mem_cons_of_mem _ hkv') p' hp')]
      simp
    | some p =>
      dsimp only
      have hcon : alistContains acc p = false := hfresh kv (List.mem_cons_self _ _) p hp
      have hadd : alistAdd acc p (platformConfigOfValue kv.2)
          = acc ++ [(p, platformConfigOfValue kv.2)] := by
        unfold alistAdd
        rw [if_neg]
        intro hany
        unfold alistContains at hcon
        rw [hcon] at hany
        exact Bool.noConfusion hany
      rw [hadd]
      rw [ih (acc ++ [(p, platformConfigOfValue kv.2)]) hndr ?_]
      · simp
      · intro kv' hkv' p' hp'
        unfold alistContains
        rw [List.any_append]
        have h1 : acc.any (fun q => q.1 = p') = false := by
          have := hfresh kv' (List.mem_cons_of_mem _ hkv') p' hp'
          unfold alistContains at this
          exact this
        rw [h1]
        simp only [Bool.false_or, List.any_cons, List.any_nil, Bool.or_false]
        by_cases hpp : p = p'
        · subst hpp
          exfalso
          have heq : strLower kv'.1 = strLower kv.1 := platformOfName_inj hp' hp
          exact hhd (heq ▸ List.mem_map_of_mem (fun kv' => strLower kv'.1) hkv')
        · simpa using hpp

theorem parsePlatformBindings_eq (bo : JsonObj)
    (hnd : (bo.map (fun kv => strLower kv.1)).Nodup) :
    parsePlatformBindings bo
      = bo.filterMap (fun kv => (platformOfName kv.1).map
          (fun p => (p, platformConfigOfValue kv.2))) := by
  have h := parsePlatformBindings_go bo [] hnd (fun _ _ _ _ => rfl)
  simpa [parsePlatformBindings] using h

/-- The claim as frozen fails on the code: the engine compares `FString`s
case-insensitively (`Stricmp`), so the bindings key `android` — which is not
one of the five listed platform names — is recognized and adds an `Android`
entry to `PlatformBindings`, refuting `a bindings entry under any other
platform name adds no entry`. -/
theorem parseActionDef_caseVariant_cex :
    "android" ∉ ["PC_Keyboard", "PC_Gamepad", "Mac", "iOS", "Android"]
    ∧ (parseActionDef
        [("bindings",
          Json.obj [("android", Json.arr [Json.obj [("key", Json.str "W")]])])]).platformBindings
      = [(ETargetPlatform.Android,
          { bindings := [{ key := "W" }], touchControlType := "" })] :=
  ⟨by decide, by decide⟩

/-- C8 (amended): for every parsed action object, the entries of its
`bindings` object whose key equals one of the five platform names under the
engine's case-insensitive string comparison map — in the object's order — to
the entries of `PlatformBindings`, and a key matching none of the five
case-insensitively contributes nothing; a JSON array under a recognized key
yields a `FPlatformBindingConfig` whose `Bindings` hold the key bindings of
the array's object elements in exactly the array's order.  (The engine's
`FString`-keyed `TMap` keeps object keys unique up to case, the `hnd`
hypothesis.) -/
theorem parseActionDef_bindings_ordered (ao bo : JsonObj)
    (hnd : (bo.map (fun kv => strLower kv.1)).Nodup)
    (hb : tryGetObjectField ao "bindings" = some bo) :
    (parseActionDef ao).platformBindings
      = bo.filterMap (fun kv => (platformOfName kv.1).map
          (fun p => (p, platformConfigOfValue kv.2)))
    ∧ ∀ keysArray, platformConfigOfValue (.arr keysArray)
        = { bindings := keysArray.filterMap (fun v => v.asObject.map keyBindingOfObj),
            touchControlType := "" } := by
  constructor
  · unfold parseActionDef
    dsimp only
    rw [hb]
    exact parsePlatformBindings_eq bo hnd
  · intro keysArray
    simp only [platformConfigOfValue, bindingsOfArray_eq_filterMap]

/-- A concrete bindings object: one recognized platform with a two-element
key array, one unrecognized key, one touch-control platform. -/
def demoBindingsObj : JsonObj :=
  [("PC_Keyboard", Json.arr [Json.obj [("key", Json.str "W")],
      Json.obj [("key", Json.str "A")]]),
   ("Weird", Json.str "x"),
   ("iOS", Json.obj [("touchControl", Json.str "VirtualJoystick_Fixed")])]

/-- A concrete action object carrying `demoBindingsObj`. -/
def demoActionObj : JsonObj :=
  [("name", Json.str "Move"), ("bindings", Json.obj demoBindingsObj)]

/-- Concrete instance of `parseActionDef_bindings_ordered` at
`demoActionObj`. -/
theorem parseActionDef_bindings_ordered_witness :
    (parseActionDef demoActionObj).platformBindings
      = demoBindingsObj.filterMap (fun kv => (platformOfName kv.1).map
          (fun p => (p, platformConfigOfValue kv.2)))
    ∧ platformConfigOfValue (.arr [Json.obj [("key", Json.str "W")]])
        = { bindings := [Json.obj [("key", Json.str "W")]].filterMap
              (fun v => v.asObject.map keyBindingOfObj),
            touchControlType := "" } :=
  ⟨(parseActionDef_bindings_ordered demoActionObj demoBindingsObj (by decide) rfl).1,
   (parseActionDef_bindings_ordered demoActionObj demoBindingsObj (by decide) rfl).2
     [Json.obj [("key", Json.str "W")]]⟩

end InputStreamliner
